import Mathlib

/-!
Verification of the conf_test build-time feature-probing pipeline
(`ConfTest::run` and its helpers in src/lib.rs), as a shallow embedding.

The embedding models the run as a pure function of an environment record
holding exactly the inputs the pipeline reads: the process environment
variables, the parsed cargo metadata (packages with edition, features and
dependencies), the existence of probe sources, oracles for the outcome of
compiling and running each probe (as functions of the feature flags passed),
the lockfile state, and the artifact-message stream consumed by
`get_extern_libs`.  Subprocess effects are recorded in the result:
the printed diagnostic lines, every probe compilation call together with
the `--cfg feature` flags it received, the features for which an
enable-feature directive (`cargo:rustc-cfg=feature="..."`) was emitted,
and whether deletion of the lockfile was attempted.  Panics (`expect`,
`panic!`, `todo!`) are modelled with `Except` / explicit outcome values.
-/

namespace ConfTest

/-- Language edition, mirroring `cargo_metadata::Edition` restricted to the
variants the code distinguishes; `E2024` stands for any edition beyond the
three the code handles. -/
inductive Edition where
  | E2015
  | E2018
  | E2021
  | E2024
deriving DecidableEq, Repr

/-- `edition_to_str` from src/lib.rs: defined for 2015/2018/2021, `todo!()`
(modelled as `none`) otherwise. -/
def edition_to_str : Edition → Option String
  | .E2015 => some "2015"
  | .E2018 => some "2018"
  | .E2021 => some "2021"
  | _ => none

/-- The panic message of the `todo!("send PR for new editions")` branch of
`edition_to_str`. -/
def editionPanicMsg : String := "not yet implemented: send PR for new editions"

/-- One package of the cargo metadata: its declared edition, feature names
and dependency names. -/
structure Package where
  edition : Edition
  features : List String
  dependencies : List String
deriving DecidableEq, Repr

/-- Lexicographic comparison of character lists, the order under which
`BTreeSet<String>` / `BTreeMap<OsString, _>` keep their keys (UTF-8 byte
order coincides with scalar-value order). -/
def charListLt : List Char → List Char → Bool
  | _, [] => false
  | [], _ :: _ => true
  | a :: as, b :: bs =>
    if a < b then true
    else if b < a then false
    else charListLt as bs

/-- Lexicographic order on strings, executable by the kernel. -/
def strLt (a b : String) : Bool := charListLt a.data b.data

/-- Insertion into a sorted duplicate-free list of strings, modelling
`BTreeSet<String>::insert`. -/
def btreeInsert (x : String) : List String → List String
  | [] => [x]
  | y :: ys =>
    if strLt x y then x :: y :: ys
    else if x = y then y :: ys
    else y :: btreeInsert x ys

/-- The metadata-collection loop of `ConfTest::run`: fold over the packages,
inserting every feature and dependency name into ordered sets and taking the
first edition seen. -/
def metaFold (st : List String × List String × Option Edition) (p : Package) :
    List String × List String × Option Edition :=
  let ed := match st.2.2 with
    | none => some p.edition
    | some e => some e
  let feats := p.features.foldl (fun acc f => btreeInsert f acc) st.1
  let deps := p.dependencies.foldl (fun acc d => btreeInsert d acc) st.2.1
  (feats, deps, ed)

/-- Collect features, dependencies and the first-seen edition from the list
of packages, mirroring the `for package in metadata.packages` loop. -/
def collectMeta (pkgs : List Package) : List String × List String × Option Edition :=
  pkgs.foldl metaFold ([], [], none)

/-- The ordered feature-name set of the metadata. -/
def featuresOf (pkgs : List Package) : List String := (collectMeta pkgs).1

/-- The ordered dependency-name set of the metadata. -/
def depsOf (pkgs : List Package) : List String := (collectMeta pkgs).2.1

/-- The first edition seen among the packages, if any. -/
def editionOf (pkgs : List Package) : Option Edition := (collectMeta pkgs).2.2

/-- A line of cargo's json message stream: a compiler-artifact event
(target name and produced file names) or anything else, which
`get_extern_libs` ignores. -/
inductive Message where
  | compilerArtifact (targetName : String) (filenames : List String)
  | other
deriving DecidableEq, Repr

/-- Split a character list at every occurrence of a separator (the pieces,
in order, without the separator), as `str::split` / `String::splitOn` do. -/
def splitChar (sep : Char) : List Char → List (List Char)
  | [] => [[]]
  | c :: cs =>
    if c = sep then [] :: splitChar sep cs
    else
      match splitChar sep cs with
      | [] => [[c]]
      | h :: t => (c :: h) :: t

/-- The file-name component of a path: everything after the last slash. -/
def fileName (p : String) : String := ⟨(splitChar '/' p.data).getLastD []⟩

/-- Stem and extension of a bare file name, following
`Path::file_stem` / `Path::extension`: the split is at the last dot; a name
without a dot, or whose only dot is a leading one, has no extension. -/
def fileStemExt (file : String) : Option String × Option String :=
  if file = "" then (none, none)
  else
    match splitChar '.' file.data with
    | [] => (some file, none)
    | [_] => (some file, none)
    | [[], _] => (some file, none)
    | parts => (some ⟨List.intercalate ['.'] parts.dropLast⟩, some ⟨parts.getLastD []⟩)

/-- `file_stem` of a path. -/
def fileStem (p : String) : Option String := (fileStemExt (fileName p)).1

/-- `extension` of a path. -/
def extension (p : String) : Option String := (fileStemExt (fileName p)).2

/-- The artifact mapping built by `get_extern_libs`: a sorted association
list from artifact identifier (file stem) to (logical target name, path),
modelling `BTreeMap<OsString, (String, PathBuf)>`. -/
abbrev ExternMap := List (String × String × String)

instance {ε α : Type} [DecidableEq ε] [DecidableEq α] : DecidableEq (Except ε α) :=
  fun a b =>
    match a, b with
    | .ok x, .ok y =>
      if h : x = y then .isTrue (by rw [h]) else .isFalse (by intro hc; cases hc; exact h rfl)
    | .error x, .error y =>
      if h : x = y then .isTrue (by rw [h]) else .isFalse (by intro hc; cases hc; exact h rfl)
    | .ok _, .error _ => .isFalse (by intro hc; cases hc)
    | .error _, .ok _ => .isFalse (by intro hc; cases hc)

/-- `BTreeMap::insert`: put `(k, v)` in key order, replacing an existing
entry with the same key. -/
def mapInsert (k : String) (v : String × String) : ExternMap → ExternMap
  | [] => [(k, v)]
  | (k', v') :: rest =>
    if strLt k k' then (k, v) :: (k', v') :: rest
    else if k = k' then (k, v) :: rest
    else (k', v') :: mapInsert k v rest

/-- `BTreeMap` lookup (`contains_key` / indexing). -/
def mapLookup (k : String) : ExternMap → Option (String × String)
  | [] => none
  | (k', v) :: rest => if k = k' then some v else mapLookup k rest

/-- Processing of one produced file name of a dependency artifact inside
`get_extern_libs`: insert an rlib unconditionally; insert an rmeta only
over an existing non-rlib entry with the same identifier; insert any other
kind only over an existing entry that is neither rlib nor rmeta.  The
`expect` / `panic!` calls become `Except.error`. -/
def externStep (name : String) (m : ExternMap) (filename : String) :
    Except String ExternMap :=
  match fileStem filename with
  | none => .error "invalid file name"
  | some id =>
    match extension filename with
    | none => .error "extension is not utf8"
    | some ext =>
      if ext = "rlib" then .ok (mapInsert id (name, filename) m)
      else if ext = "rmeta" then
        match mapLookup id m with
        | none => .ok m
        | some (_, stored) =>
          match extension stored with
          | none => .error "stored extension"
          | some se =>
            if se = "rlib" then .ok m
            else .ok (mapInsert id (name, filename) m)
      else
        match mapLookup id m with
        | none => .ok m
        | some (_, stored) =>
          match extension stored with
          | none => .error "stored extension"
          | some se =>
            if se = "rmeta" ∨ se = "rlib" then .ok m
            else .ok (mapInsert id (name, filename) m)

/-- Processing of one message of the stream: only compiler-artifact events
whose target name is in the dependency set contribute; their files are
folded through `externStep`. -/
def artifactStep (deps : List String) (m : ExternMap) (msg : Message) :
    Except String ExternMap :=
  match msg with
  | .other => .ok m
  | .compilerArtifact name files =>
    if name ∈ deps then files.foldlM (externStep name) m else .ok m

/-- `ConfTest::get_extern_libs`: fold the whole message stream, starting
from the empty mapping. -/
def getExternLibs (deps : List String) (msgs : List Message) :
    Except String ExternMap :=
  msgs.foldlM (artifactStep deps) ([] : ExternMap)

/-- The environment of one run: everything `ConfTest::run` reads from the
outside world. -/
structure Env where
  /-- `std::env::var_os`. -/
  envVars : String → Option String
  /-- The parsed cargo metadata; `none` models a metadata query failure. -/
  metadata : Option (List Package)
  /-- Whether `conf_tests/<feature>.rs` exists. -/
  probeExists : String → Bool
  /-- Whether rustc exits successfully when compiling the probe of a
  feature with a given list of `--cfg feature` flags. -/
  compileOk : String → List String → Bool
  /-- The captured stdout of running the compiled probe of a feature
  (built with the given flags); `none` models a nonzero exit or a spawn
  failure. -/
  runRes : String → List String → Option String
  /-- Whether `CARGO_MANIFEST_DIR/Cargo.lock` exists when checked. -/
  lockfileExists : Bool
  /-- Whether `std::fs::remove_file` on the lockfile succeeds (the
  artifact-resolution pass may have created one meanwhile). -/
  removeOk : Bool
  /-- The message stream of the artifact-resolution cargo process. -/
  artifacts : List Message

/-- How the run ends: a normal return, `std::process::exit(code)`, or a
panic with the given message. -/
inductive Outcome where
  | success
  | exited (code : Nat)
  | panicked (msg : String)
deriving DecidableEq, Repr

/-- The observable result of a run: the outcome, the lines actually printed
to stdout (the buffered `outputs` are printed only when the run reaches its
final loop, so a panic prints nothing), the probe-compilation calls with the
feature flags each received, the features for which an enable-feature
directive was emitted, and whether lockfile deletion was attempted. -/
structure RunResult where
  outcome : Outcome
  printed : List String
  calls : List (String × List String)
  enabled : List String
  lockfileDeleteAttempted : Bool
deriving DecidableEq, Repr

/-- The state threaded through the feature loop: the buffered output lines,
the `test_features` vector passed to probe compilations, and the recorded
compilation calls and emitted enable directives. -/
structure LoopSt where
  outputs : List String
  testFeatures : List String
  calls : List (String × List String)
  enabled : List String
deriving DecidableEq, Repr

/-- ASCII uppercasing of a feature name, as `str::to_uppercase` does when
building the `CARGO_FEATURE_*` variable name. -/
def toUpperStr (s : String) : String := ⟨s.data.map Char.toUpper⟩

/-- Whether a feature was set manually by the invoking cargo command:
`env("CARGO_FEATURE_<uppercased feature>")` is present. -/
def isManual (E : Env) (f : String) : Bool :=
  (E.envVars ("CARGO_FEATURE_" ++ toUpperStr f)).isSome

/-- One iteration of the feature loop of `ConfTest::run` (lines 246-285 of
src/lib.rs).  Note the unconditional `test_features.push(feature.clone())`
at the end of the source loop body: every branch appends the feature to
`testFeatures`, and the success branch appends it twice (once inside the
success arm, once at the loop end). -/
def featureStep (E : Env) (ed : Edition) (st : LoopSt) (f : String) :
    Except String LoopSt :=
  if isManual E f then
    .ok { st with
      outputs := st.outputs ++
        ["# test for \'" ++ f ++ "\' manually overridden\n", "\n"],
      testFeatures := st.testFeatures ++ [f] }
  else
    let o1 := st.outputs ++ ["# checking for " ++ f ++ "\n"]
    if E.probeExists f then
      let o2 := o1 ++ ["# conf_tests/" ++ f ++ ".rs exists\n",
                       "cargo:rerun-if-changed=conf_tests/" ++ f ++ ".rs\n"]
      match edition_to_str ed with
      | none => .error editionPanicMsg
      | some _ =>
        let calls := st.calls ++ [(f, st.testFeatures)]
        if E.compileOk f st.testFeatures then
          let o3 := o2 ++ ["# compiling ConfTest for " ++ f ++ " success\n"]
          match E.runRes f st.testFeatures with
          | some stdout =>
            .ok { outputs := o3 ++
                    ["# executing ConfTest for " ++ f ++ " success\n",
                     "cargo:rustc-cfg=feature=\"" ++ f ++ "\"\n",
                     stdout, "\n"],
                  testFeatures := st.testFeatures ++ [f] ++ [f],
                  calls := calls,
                  enabled := st.enabled ++ [f] }
          | none =>
            .ok { outputs := o3 ++
                    ["# executing ConfTest for " ++ f ++ " failed\n", "\n"],
                  testFeatures := st.testFeatures ++ [f],
                  calls := calls,
                  enabled := st.enabled }
        else
          .ok { outputs := o2 ++
                  ["# compiling ConfTest for " ++ f ++ " failed\n", "\n"],
                testFeatures := st.testFeatures ++ [f],
                calls := calls,
                enabled := st.enabled }
    else
      .ok { st with
        outputs := o1 ++ ["# test for \'" ++ f ++ "\' does not exist\n", "\n"],
        testFeatures := st.testFeatures ++ [f] }

/-- The whole feature loop: iterate `featureStep` over the ordered feature
list, stopping at a panic. -/
def featureLoop (E : Env) (ed : Edition) (st : LoopSt) :
    List String → Except String LoopSt
  | [] => .ok st
  | f :: fs =>
    match featureStep E ed st f with
    | .error e => .error e
    | .ok st' => featureLoop E ed st' fs

/-- The diagnostic lines accumulated before the feature loop on the
non-docs path: the `OUT_DIR` header, the lockfile-presence line, and — only
when the lockfile was absent — the deletion report. -/
def preLines (E : Env) (o d : String) : List String :=
  let o2 := ["# OUT_DIR is \'\"" ++ o ++ "\"\'\n",
             "# Lockfile \'\"" ++ d ++ "/Cargo.lock\"\' present: " ++
               (if E.lockfileExists then "true" else "false") ++ "\n"]
  if E.lockfileExists then o2 else
    o2 ++ ["# Delete Lockfile: \'\"" ++ d ++ "/Cargo.lock\"\', " ++
           (if E.removeOk then "true" else "false") ++ "\n"]

/-- The body of `ConfTest::run` after the inhibition gate: header line,
metadata query, docs.rs special case, lockfile check, artifact resolution,
conditional lockfile deletion, and the feature loop. -/
def runBody (E : Env) : RunResult :=
  match E.envVars "OUT_DIR" with
  | none => ⟨.panicked "env var OUT_DIR is not set", [], [], [], false⟩
  | some outDir =>
    let o1 := ["# OUT_DIR is \'\"" ++ outDir ++ "\"\'\n"]
    match E.metadata with
    | none => ⟨.panicked "Querying cargo metadata failed", [], [], [], false⟩
    | some pkgs =>
      let features := featuresOf pkgs
      if (E.envVars "DOCS_RS").isSome then
        if features.contains "docs_rs" then
          ⟨.success,
           o1 ++ ["# running on DOCS.RS\n", "cargo:rustc-cfg=feature=\"docs_rs\"\n"],
           [], ["docs_rs"], false⟩
        else
          ⟨.success, o1 ++ ["# running on DOCS.RS\n"], [], [], false⟩
      else
        let ed := (editionOf pkgs).getD .E2021
        match E.envVars "CARGO_MANIFEST_DIR" with
        | none => ⟨.panicked "env var CARGO_MANIFEST_DIR is not set", [], [], [], false⟩
        | some mdir =>
          match getExternLibs (depsOf pkgs) E.artifacts with
          | .error e => ⟨.panicked e, [], [], [], false⟩
          | .ok _externs =>
            match featureLoop E ed ⟨preLines E outDir mdir, [], [], []⟩ features with
            | .error e => ⟨.panicked e, [], [], [], !E.lockfileExists⟩
            | .ok st => ⟨.success, st.outputs, st.calls, st.enabled, !E.lockfileExists⟩

/-- `ConfTest::run`: the inhibition gate followed by the body.  The gate
prints its warnings immediately (before any buffering), so those lines are
recorded as printed even on the `fail` exit. -/
def run (E : Env) : RunResult :=
  match E.envVars "CONF_TEST_INHIBIT" with
  | some v =>
    if v = "skip" then
      ⟨.success, ["cargo:warning=Skipping ConfTest via CONF_TEST_INHIBIT"],
       [], [], false⟩
    else if v = "stop" then ⟨.exited 0, [], [], [], false⟩
    else if v = "fail" then
      ⟨.exited 1, ["cargo:warning=Requested ConfTest failure via CONF_TEST_INHIBIT"],
       [], [], false⟩
    else ⟨.panicked ("Unknown CONF_TEST_INHIBIT value: \"" ++ v ++ "\""), [], [], [], false⟩
  | none => runBody E

/-! ### Concrete environments used to exercise the pipeline -/

/-- Two declared features; the probe of `aa` always fails to compile, the
probe of `bb` always compiles and runs successfully; no manual overrides,
no inhibition, lockfile present, empty artifact stream. -/
def envC1 : Env where
  envVars := fun s => if s = "OUT_DIR" then some "/out"
    else if s = "CARGO_MANIFEST_DIR" then some "/proj" else none
  metadata := some [⟨.E2021, ["aa", "bb"], []⟩]
  probeExists := fun f => f == "aa" || f == "bb"
  compileOk := fun f _ => f == "bb"
  runRes := fun f _ => if f = "bb" then some "" else none
  lockfileExists := true
  removeOk := false
  artifacts := []

/-- Like `envC1`, but the feature `aa` is manually set
(`CARGO_FEATURE_AA` present). -/
def envC1m : Env := { envC1 with
  envVars := fun s => if s = "OUT_DIR" then some "/out"
    else if s = "CARGO_MANIFEST_DIR" then some "/proj"
    else if s = "CARGO_FEATURE_AA" then some "1" else none }

/-- `envC1` with the inhibition variable set to a given value. -/
def envGate (inh : Option String) : Env := { envC1 with
  envVars := fun s => if s = "CONF_TEST_INHIBIT" then inh
    else if s = "OUT_DIR" then some "/out"
    else if s = "CARGO_MANIFEST_DIR" then some "/proj" else none }

/-- Features `alpha` and `beta`; only `alpha` has a probe source, and every
probe that exists compiles and runs successfully. -/
def envC7 : Env := { envC1 with
  metadata := some [⟨.E2021, ["alpha", "beta"], []⟩],
  probeExists := fun f => f == "alpha",
  compileOk := fun _ _ => true,
  runRes := fun _ _ => some "" }

/-- `envC1` with a first package declaring the 2024 edition. -/
def envC9 : Env := { envC1 with metadata := some [⟨.E2024, ["aa", "bb"], []⟩] }

/-- The state in which the feature loop of `envC1` ends. -/
def stC6 : LoopSt where
  outputs := ["# checking for aa\n", "# conf_tests/aa.rs exists\n",
    "cargo:rerun-if-changed=conf_tests/aa.rs\n",
    "# compiling ConfTest for aa failed\n", "\n",
    "# checking for bb\n", "# conf_tests/bb.rs exists\n",
    "cargo:rerun-if-changed=conf_tests/bb.rs\n",
    "# compiling ConfTest for bb success\n",
    "# executing ConfTest for bb success\n",
    "cargo:rustc-cfg=feature=\"bb\"\n", "", "\n"]
  testFeatures := ["aa", "bb", "bb"]
  calls := [("aa", []), ("bb", ["aa"])]
  enabled := ["bb"]

/-! ### Order lemmas: `strLt` is the strict lexicographic order on strings -/

theorem charListLt_iff (as : List Char) :
    ∀ bs, charListLt as bs = true ↔ List.Lex (· < ·) as bs := by
  induction as with
  | nil =>
    intro bs
    cases bs with
    | nil => simp [charListLt]
    | cons b bs => exact iff_of_true rfl List.Lex.nil
  | cons a as ih =>
    intro bs
    cases bs with
    | nil => simp [charListLt]
    | cons b bs =>
      show (if a < b then true else if b < a then false else charListLt as bs) = true ↔ _
      rcases lt_trichotomy a b with h | h | h
      · rw [if_pos h]
        exact iff_of_true rfl (List.Lex.rel h)
      · subst h
        rw [if_neg (lt_irrefl a), if_neg (lt_irrefl a)]
        exact (ih bs).trans List.Lex.cons_iff.symm
      · rw [if_neg (asymm h), if_pos h]
        apply iff_of_false (by simp)
        intro hlex
        cases hlex with
        | cons h' => exact absurd h (lt_irrefl a)
        | rel h' => exact absurd h (asymm h')

theorem strLt_iff (a b : String) : strLt a b = true ↔ a < b := by
  rw [String.lt_iff_toList_lt]
  exact charListLt_iff a.data b.data

/-! ### `btreeInsert`: membership and sortedness -/

theorem btreeInsert_mem (x a : String) :
    ∀ l : List String, a ∈ btreeInsert x l ↔ a = x ∨ a ∈ l := by
  intro l
  induction l with
  | nil => simp [btreeInsert]
  | cons y ys ih =>
    rw [btreeInsert]
    by_cases h1 : strLt x y
    · rw [if_pos h1]
      simp
    · rw [if_neg h1]
      by_cases h2 : x = y
      · subst h2
        rw [if_pos rfl]
        simp only [List.mem_cons]
        tauto
      · rw [if_neg h2]
        simp only [List.mem_cons, ih]
        tauto

theorem btreeInsert_sorted (x : String) :
    ∀ l : List String, List.Sorted (· < ·) l →
      List.Sorted (· < ·) (btreeInsert x l) := by
  intro l
  induction l with
  | nil => intro _; simp [btreeInsert]
  | cons y ys ih =>
    intro hs
    rw [List.sorted_cons] at hs
    obtain ⟨hy, hys⟩ := hs
    rw [btreeInsert]
    by_cases h1 : strLt x y
    · rw [if_pos h1]
      rw [strLt_iff] at h1
      rw [List.sorted_cons]
      refine ⟨?_, List.sorted_cons.2 ⟨hy, hys⟩⟩
      intro b hb
      rcases List.mem_cons.1 hb with rfl | hb
      · exact h1
      · exact lt_trans h1 (hy b hb)
    · rw [if_neg h1]
      by_cases h2 : x = y
      · rw [if_pos h2]
        exact List.sorted_cons.2 ⟨hy, hys⟩
      · rw [if_neg h2]
        have hyx : y < x := by
          rcases lt_trichotomy x y with h | h | h
          · exact absurd ((strLt_iff x y).2 h) h1
          · exact absurd h h2
          · exact h
        rw [List.sorted_cons]
        refine ⟨?_, ih hys⟩
        intro b hb
        rcases (btreeInsert_mem x b ys).1 hb with rfl | hb
        · exact hyx
        · exact hy b hb

/-! ### `collectMeta`: sortedness, membership, edition -/

theorem foldl_btreeInsert_sorted (fs : List String) :
    ∀ acc, List.Sorted (· < ·) acc →
      List.Sorted (· < ·) (fs.foldl (fun a f => btreeInsert f a) acc) := by
  induction fs with
  | nil => intro acc h; exact h
  | cons f fs ih => intro acc h; exact ih _ (btreeInsert_sorted f acc h)

theorem foldl_btreeInsert_mem (fs : List String) :
    ∀ acc a, a ∈ fs.foldl (fun a f => btreeInsert f a) acc ↔ a ∈ acc ∨ a ∈ fs := by
  induction fs with
  | nil => intro acc a; simp
  | cons f fs ih =>
    intro acc a
    rw [List.foldl_cons, ih, btreeInsert_mem]
    simp only [List.mem_cons]
    tauto

theorem collectMeta_sorted (pkgs : List Package) :
    ∀ st, List.Sorted (· < ·) st.1 → List.Sorted (· < ·) st.2.1 →
      List.Sorted (· < ·) (pkgs.foldl metaFold st).1 ∧
      List.Sorted (· < ·) (pkgs.foldl metaFold st).2.1 := by
  induction pkgs with
  | nil => intro st h1 h2; exact ⟨h1, h2⟩
  | cons p ps ih =>
    intro st h1 h2
    exact ih _ (foldl_btreeInsert_sorted p.features st.1 h1)
      (foldl_btreeInsert_sorted p.dependencies st.2.1 h2)

theorem featuresOf_sorted (pkgs : List Package) :
    List.Sorted (· < ·) (featuresOf pkgs) :=
  (collectMeta_sorted pkgs ([], [], none) List.sorted_nil List.sorted_nil).1

theorem collectMeta_mem (pkgs : List Package) :
    ∀ st f, f ∈ (pkgs.foldl metaFold st).1 ↔ f ∈ st.1 ∨ ∃ p ∈ pkgs, f ∈ p.features := by
  induction pkgs with
  | nil => intro st f; simp
  | cons p ps ih =>
    intro st f
    rw [List.foldl_cons, ih]
    show f ∈ (p.features.foldl (fun a g => btreeInsert g a) st.1) ∨ _ ↔ _
    rw [foldl_btreeInsert_mem]
    simp only [List.mem_cons]
    constructor
    · rintro ((h | h) | ⟨q, hq, hf⟩)
      · exact Or.inl h
      · exact Or.inr ⟨p, Or.inl rfl, h⟩
      · exact Or.inr ⟨q, Or.inr hq, hf⟩
    · rintro (h | ⟨q, (rfl | hq), hf⟩)
      · exact Or.inl (Or.inl h)
      · exact Or.inl (Or.inr hf)
      · exact Or.inr ⟨q, hq, hf⟩

theorem featuresOf_mem (pkgs : List Package) (f : String) :
    f ∈ featuresOf pkgs ↔ ∃ p ∈ pkgs, f ∈ p.features := by
  rw [featuresOf, collectMeta, collectMeta_mem]
  simp

theorem collectMeta_edition_some (pkgs : List Package) :
    ∀ st e, st.2.2 = some e → (pkgs.foldl metaFold st).2.2 = some e := by
  induction pkgs with
  | nil => intro st e h; exact h
  | cons p ps ih =>
    intro st e h
    apply ih
    show (match st.2.2 with | none => some p.edition | some e => some e) = some e
    rw [h]

theorem editionOf_cons (p : Package) (ps : List Package) :
    editionOf (p :: ps) = some p.edition := by
  rw [editionOf, collectMeta, List.foldl_cons]
  exact collectMeta_edition_some ps _ p.edition rfl

/-! ### Characterization of one feature-loop iteration -/

theorem featureStep_manual (E : Env) (ed : Edition) (st : LoopSt) (f : String)
    (h : isManual E f = true) :
    featureStep E ed st f = .ok { st with
      outputs := st.outputs ++
        ["# test for \'" ++ f ++ "\' manually overridden\n", "\n"],
      testFeatures := st.testFeatures ++ [f] } := by
  simp only [featureStep, h, if_pos]

theorem featureStep_absent (E : Env) (ed : Edition) (st : LoopSt) (f : String)
    (h : isManual E f = false) (hp : E.probeExists f = false) :
    featureStep E ed st f = .ok { st with
      outputs := st.outputs ++ ["# checking for " ++ f ++ "\n"] ++
        ["# test for \'" ++ f ++ "\' does not exist\n", "\n"],
      testFeatures := st.testFeatures ++ [f] } := by
  simp only [featureStep, h, hp, Bool.false_eq_true, if_false, List.append_assoc]

theorem featureStep_edition_none (E : Env) (ed : Edition) (st : LoopSt) (f : String)
    (h : isManual E f = false) (hp : E.probeExists f = true)
    (he : edition_to_str ed = none) :
    featureStep E ed st f = .error editionPanicMsg := by
  simp only [featureStep, h, hp, he, Bool.false_eq_true, if_false, if_true]

theorem featureStep_compile_fail (E : Env) (ed : Edition) (st : LoopSt) (f : String)
    (s : String) (h : isManual E f = false) (hp : E.probeExists f = true)
    (he : edition_to_str ed = some s) (hc : E.compileOk f st.testFeatures = false) :
    featureStep E ed st f = .ok
      { outputs := st.outputs ++ ["# checking for " ++ f ++ "\n"] ++
          ["# conf_tests/" ++ f ++ ".rs exists\n",
           "cargo:rerun-if-changed=conf_tests/" ++ f ++ ".rs\n"] ++
          ["# compiling ConfTest for " ++ f ++ " failed\n", "\n"],
        testFeatures := st.testFeatures ++ [f],
        calls := st.calls ++ [(f, st.testFeatures)],
        enabled := st.enabled } := by
  simp only [featureStep, h, hp, he, hc, Bool.false_eq_true, if_false, if_true,
    List.append_assoc]

theorem featureStep_run_fail (E : Env) (ed : Edition) (st : LoopSt) (f : String)
    (s : String) (h : isManual E f = false) (hp : E.probeExists f = true)
    (he : edition_to_str ed = some s) (hc : E.compileOk f st.testFeatures = true)
    (hr : E.runRes f st.testFeatures = none) :
    featureStep E ed st f = .ok
      { outputs := st.outputs ++ ["# checking for " ++ f ++ "\n"] ++
          ["# conf_tests/" ++ f ++ ".rs exists\n",
           "cargo:rerun-if-changed=conf_tests/" ++ f ++ ".rs\n"] ++
          ["# compiling ConfTest for " ++ f ++ " success\n"] ++
          ["# executing ConfTest for " ++ f ++ " failed\n", "\n"],
        testFeatures := st.testFeatures ++ [f],
        calls := st.calls ++ [(f, st.testFeatures)],
        enabled := st.enabled } := by
  simp only [featureStep, h, hp, he, hc, hr, Bool.false_eq_true, if_false, if_true,
    List.append_assoc]

theorem featureStep_success (E : Env) (ed : Edition) (st : LoopSt) (f : String)
    (s out : String) (h : isManual E f = false) (hp : E.probeExists f = true)
    (he : edition_to_str ed = some s) (hc : E.compileOk f st.testFeatures = true)
    (hr : E.runRes f st.testFeatures = some out) :
    featureStep E ed st f = .ok
      { outputs := st.outputs ++ ["# checking for " ++ f ++ "\n"] ++
          ["# conf_tests/" ++ f ++ ".rs exists\n",
           "cargo:rerun-if-changed=conf_tests/" ++ f ++ ".rs\n"] ++
          ["# compiling ConfTest for " ++ f ++ " success\n"] ++
          ["# executing ConfTest for " ++ f ++ " success\n",
           "cargo:rustc-cfg=feature=\"" ++ f ++ "\"\n", out, "\n"],
        testFeatures := st.testFeatures ++ [f] ++ [f],
        calls := st.calls ++ [(f, st.testFeatures)],
        enabled := st.enabled ++ [f] } := by
  simp only [featureStep, h, hp, he, hc, hr, Bool.false_eq_true, if_false, if_true,
    List.append_assoc]

/-- Any successful iteration only appends to the state: outputs and
`testFeatures` are extended, `enabled` and `calls` gain at most the current
feature. -/
theorem featureStep_shape (E : Env) (ed : Edition) (st : LoopSt) (f : String)
    (st' : LoopSt) (h : featureStep E ed st f = .ok st') :
    (∃ t, st'.outputs = st.outputs ++ t) ∧
    (∃ t, st'.testFeatures = st.testFeatures ++ t) ∧
    (st'.enabled = st.enabled ∨ st'.enabled = st.enabled ++ [f]) ∧
    (st'.calls = st.calls ∨ st'.calls = st.calls ++ [(f, st.testFeatures)]) := by
  cases h1 : isManual E f with
  | true =>
    rw [featureStep_manual E ed st f h1] at h
    cases h
    exact ⟨⟨_, rfl⟩, ⟨_, rfl⟩, Or.inl rfl, Or.inl rfl⟩
  | false =>
    cases h2 : E.probeExists f with
    | false =>
      rw [featureStep_absent E ed st f h1 h2] at h
      cases h
      exact ⟨⟨_, by rw [List.append_assoc]⟩, ⟨_, rfl⟩, Or.inl rfl, Or.inl rfl⟩
    | true =>
      cases he : edition_to_str ed with
      | none =>
        rw [featureStep_edition_none E ed st f h1 h2 he] at h
        cases h
      | some s =>
        cases h3 : E.compileOk f st.testFeatures with
        | false =>
          rw [featureStep_compile_fail E ed st f s h1 h2 he h3] at h
          cases h
          exact ⟨⟨_, by rw [List.append_assoc, List.append_assoc]⟩, ⟨_, rfl⟩,
            Or.inl rfl, Or.inr rfl⟩
        | true =>
          cases hr : E.runRes f st.testFeatures with
          | none =>
            rw [featureStep_run_fail E ed st f s h1 h2 he h3 hr] at h
            cases h
            exact ⟨⟨_, by rw [List.append_assoc, List.append_assoc, List.append_assoc]⟩,
              ⟨_, rfl⟩, Or.inl rfl, Or.inr rfl⟩
          | some out =>
            rw [featureStep_success E ed st f s out h1 h2 he h3 hr] at h
            cases h
            exact ⟨⟨_, by rw [List.append_assoc, List.append_assoc, List.append_assoc]⟩,
              ⟨_, List.append_assoc _ _ _⟩, Or.inr rfl, Or.inr rfl⟩

/-- An iteration can only fail with the edition panic. -/
theorem featureStep_error_msg (E : Env) (ed : Edition) (st : LoopSt) (f : String)
    (e : String) (h : featureStep E ed st f = .error e) : e = editionPanicMsg := by
  cases h1 : isManual E f with
  | true => rw [featureStep_manual E ed st f h1] at h; cases h
  | false =>
    cases h2 : E.probeExists f with
    | false => rw [featureStep_absent E ed st f h1 h2] at h; cases h
    | true =>
      cases he : edition_to_str ed with
      | none =>
        rw [featureStep_edition_none E ed st f h1 h2 he] at h
        cases h
        rfl
      | some s =>
        cases h3 : E.compileOk f st.testFeatures with
        | false => rw [featureStep_compile_fail E ed st f s h1 h2 he h3] at h; cases h
        | true =>
          cases hr : E.runRes f st.testFeatures with
          | none => rw [featureStep_run_fail E ed st f s h1 h2 he h3 hr] at h; cases h
          | some out => rw [featureStep_success E ed st f s out h1 h2 he h3 hr] at h; cases h

/-- When the edition is representable, an iteration never fails. -/
theorem featureStep_ok (E : Env) (ed : Edition) (st : LoopSt) (f : String)
    (s : String) (he : edition_to_str ed = some s) :
    ∃ st', featureStep E ed st f = .ok st' := by
  cases h1 : isManual E f with
  | true => exact ⟨_, featureStep_manual E ed st f h1⟩
  | false =>
    cases h2 : E.probeExists f with
    | false => exact ⟨_, featureStep_absent E ed st f h1 h2⟩
    | true =>
      cases h3 : E.compileOk f st.testFeatures with
      | false => exact ⟨_, featureStep_compile_fail E ed st f s h1 h2 he h3⟩
      | true =>
        cases hr : E.runRes f st.testFeatures with
        | none => exact ⟨_, featureStep_run_fail E ed st f s h1 h2 he h3 hr⟩
        | some out => exact ⟨_, featureStep_success E ed st f s out h1 h2 he h3 hr⟩

/-- A feature is added to `enabled` only by the success branch of its own
iteration. -/
theorem featureStep_enabled_origin (E : Env) (ed : Edition) (st : LoopSt) (f : String)
    (st' : LoopSt) (h : featureStep E ed st f = .ok st') (x : String)
    (hx : x ∈ st'.enabled) :
    x ∈ st.enabled ∨ (x = f ∧ isManual E f = false ∧ E.probeExists f = true ∧
      E.compileOk f st.testFeatures = true ∧ (E.runRes f st.testFeatures).isSome = true) := by
  rcases h1 : isManual E f with _ | _
  · rcases h2 : E.probeExists f with _ | _
    · rw [featureStep_absent E ed st f h1 h2] at h
      cases h
      exact Or.inl hx
    · rcases he : edition_to_str ed with _ | s
      · rw [featureStep_edition_none E ed st f h1 h2 he] at h; cases h
      · rcases h3 : E.compileOk f st.testFeatures with _ | _
        · rw [featureStep_compile_fail E ed st f s h1 h2 he h3] at h
          cases h
          exact Or.inl hx
        · rcases hr : E.runRes f st.testFeatures with _ | out
          · rw [featureStep_run_fail E ed st f s h1 h2 he h3 hr] at h
            cases h
            exact Or.inl hx
          · rw [featureStep_success E ed st f s out h1 h2 he h3 hr] at h
            cases h
            rcases List.mem_append.1 hx with hx | hx
            · exact Or.inl hx
            · rcases List.mem_singleton.1 hx with rfl
              exact Or.inr ⟨rfl, rfl, rfl, rfl, rfl⟩
  · rw [featureStep_manual E ed st f h1] at h
    cases h
    exact Or.inl hx

/-- A compilation call is recorded only by an iteration whose feature is not
manual and whose probe source exists, and it receives exactly the
`testFeatures` accumulated when that iteration started. -/
theorem featureStep_calls_origin (E : Env) (ed : Edition) (st : LoopSt) (f : String)
    (st' : LoopSt) (h : featureStep E ed st f = .ok st') (x : String)
    (flags : List String) (hx : (x, flags) ∈ st'.calls) :
    (x, flags) ∈ st.calls ∨
      (x = f ∧ flags = st.testFeatures ∧ isManual E f = false ∧ E.probeExists f = true) := by
  rcases h1 : isManual E f with _ | _
  · rcases h2 : E.probeExists f with _ | _
    · rw [featureStep_absent E ed st f h1 h2] at h
      cases h
      exact Or.inl hx
    · rcases he : edition_to_str ed with _ | s
      · rw [featureStep_edition_none E ed st f h1 h2 he] at h; cases h
      · have hmem : (x, flags) ∈ st.calls ++ [(f, st.testFeatures)] →
            (x, flags) ∈ st.calls ∨
              (x = f ∧ flags = st.testFeatures ∧ false = false ∧ true = true) := by
          intro hm
          rcases List.mem_append.1 hm with hm | hm
          · exact Or.inl hm
          · have hp := List.mem_singleton.1 hm
            injection hp with hxe hfl
            exact Or.inr ⟨hxe, hfl, rfl, rfl⟩
        rcases h3 : E.compileOk f st.testFeatures with _ | _
        · rw [featureStep_compile_fail E ed st f s h1 h2 he h3] at h
          cases h
          exact hmem hx
        · rcases hr : E.runRes f st.testFeatures with _ | out
          · rw [featureStep_run_fail E ed st f s h1 h2 he h3 hr] at h
            cases h
            exact hmem hx
          · rw [featureStep_success E ed st f s out h1 h2 he h3 hr] at h
            cases h
            exact hmem hx
  · rw [featureStep_manual E ed st f h1] at h
    cases h
    exact Or.inl hx

/-! ### Loop-level lemmas -/

theorem featureLoop_cons_ok (E : Env) (ed : Edition) (st : LoopSt) (f : String)
    (fs : List String) (st' : LoopSt)
    (h : featureLoop E ed st (f :: fs) = .ok st') :
    ∃ st1, featureStep E ed st f = .ok st1 ∧ featureLoop E ed st1 fs = .ok st' := by
  rw [featureLoop] at h
  rcases hs : featureStep E ed st f with e | st1
  · rw [hs] at h
    cases h
  · rw [hs] at h
    exact ⟨st1, rfl, h⟩

/-- The loop only appends: outputs, `test_features`, enabled set and call
list all extend their incoming values. -/
theorem featureLoop_extend (E : Env) (ed : Edition) :
    ∀ (fs : List String) (st st' : LoopSt), featureLoop E ed st fs = .ok st' →
      (∃ t, st'.outputs = st.outputs ++ t) ∧
      (∃ t, st'.testFeatures = st.testFeatures ++ t) ∧
      (∃ t, st'.enabled = st.enabled ++ t) ∧
      (∃ t, st'.calls = st.calls ++ t) := by
  intro fs
  induction fs with
  | nil =>
    intro st st' h
    cases h
    exact ⟨⟨[], by simp⟩, ⟨[], by simp⟩, ⟨[], by simp⟩, ⟨[], by simp⟩⟩
  | cons f fs ih =>
    intro st st' h
    obtain ⟨st1, hs, hl⟩ := featureLoop_cons_ok E ed st f fs st' h
    obtain ⟨⟨u1, hu1⟩, ⟨u2, hu2⟩, he1, hc1⟩ := featureStep_shape E ed st f st1 hs
    obtain ⟨⟨t1, ht1⟩, ⟨t2, ht2⟩, ⟨t3, ht3⟩, ⟨t4, ht4⟩⟩ := ih st1 st' hl
    refine ⟨⟨u1 ++ t1, by rw [ht1, hu1, List.append_assoc]⟩,
            ⟨u2 ++ t2, by rw [ht2, hu2, List.append_assoc]⟩, ?_, ?_⟩
    · rcases he1 with he1 | he1
      · exact ⟨t3, by rw [ht3, he1]⟩
      · exact ⟨[f] ++ t3, by rw [ht3, he1, List.append_assoc]⟩
    · rcases hc1 with hc1 | hc1
      · exact ⟨t4, by rw [ht4, hc1]⟩
      · exact ⟨[(f, st.testFeatures)] ++ t4, by rw [ht4, hc1, List.append_assoc]⟩

theorem featureLoop_outputs_mono (E : Env) (ed : Edition) (fs : List String)
    (st st' : LoopSt) (h : featureLoop E ed st fs = .ok st')
    (l : String) (hl : l ∈ st.outputs) : l ∈ st'.outputs := by
  obtain ⟨⟨t, ht⟩, _, _, _⟩ := featureLoop_extend E ed fs st st' h
  rw [ht]
  exact List.mem_append.2 (Or.inl hl)

/-- With a representable edition the loop always succeeds. -/
theorem featureLoop_ok (E : Env) (ed : Edition) (s : String)
    (he : edition_to_str ed = some s) :
    ∀ (fs : List String) (st : LoopSt), ∃ st', featureLoop E ed st fs = .ok st' := by
  intro fs
  induction fs with
  | nil => intro st; exact ⟨st, rfl⟩
  | cons f fs ih =>
    intro st
    obtain ⟨st1, hs⟩ := featureStep_ok E ed st f s he
    obtain ⟨st', hl⟩ := ih st1
    refine ⟨st', ?_⟩
    rw [featureLoop, hs]
    exact hl

/-- The loop can only fail with the edition panic. -/
theorem featureLoop_error_msg (E : Env) (ed : Edition) :
    ∀ (fs : List String) (st : LoopSt) (e : String),
      featureLoop E ed st fs = .error e → e = editionPanicMsg := by
  intro fs
  induction fs with
  | nil => intro st e h; cases h
  | cons f fs ih =>
    intro st e h
    rw [featureLoop] at h
    rcases hs : featureStep E ed st f with e' | st1
    · rw [hs] at h
      cases h
      exact featureStep_error_msg E ed st f e hs
    · rw [hs] at h
      exact ih st1 e h

/-- A non-manual feature with an existing probe makes the loop fail with
the edition panic when the edition is not representable. -/
theorem featureLoop_trigger (E : Env) (ed : Edition) (g : String)
    (h1 : isManual E g = false) (h2 : E.probeExists g = true)
    (he : edition_to_str ed = none) :
    ∀ (fs : List String) (st : LoopSt), g ∈ fs →
      featureLoop E ed st fs = .error editionPanicMsg := by
  intro fs
  induction fs with
  | nil => intro st hg; cases hg
  | cons f fs ih =>
    intro st hg
    rw [featureLoop]
    rcases hs : featureStep E ed st f with e' | st1
    · rw [featureStep_error_msg E ed st f e' hs]
    · rcases List.mem_cons.1 hg with rfl | hg
      · rw [featureStep_edition_none E ed st g h1 h2 he] at hs
        cases hs
      · exact ih st1 hg

/-- Every feature in the final enabled set either was already enabled or is
a loop feature whose own probe compiled and ran successfully. -/
theorem featureLoop_enabled_origin (E : Env) (ed : Edition) :
    ∀ (fs : List String) (st st' : LoopSt), featureLoop E ed st fs = .ok st' →
      ∀ x, x ∈ st'.enabled → x ∈ st.enabled ∨
        (x ∈ fs ∧ isManual E x = false ∧ E.probeExists x = true ∧
          ∃ flags, E.compileOk x flags = true ∧ (E.runRes x flags).isSome = true) := by
  intro fs
  induction fs with
  | nil =>
    intro st st' h x hx
    cases h
    exact Or.inl hx
  | cons f fs ih =>
    intro st st' h x hx
    obtain ⟨st1, hs, hl⟩ := featureLoop_cons_ok E ed st f fs st' h
    rcases ih st1 st' hl x hx with hx1 | ⟨hxf, hm, hp, hc⟩
    · rcases featureStep_enabled_origin E ed st f st1 hs x hx1 with hx0 | ⟨rfl, hm, hp, hc, hr⟩
      · exact Or.inl hx0
      · exact Or.inr ⟨List.mem_cons_self _ _, hm, hp, st.testFeatures, hc, hr⟩
    · exact Or.inr ⟨List.mem_cons_of_mem f hxf, hm, hp, hc⟩

/-- Every recorded compile call belongs to a loop feature that is not
manual and whose probe source exists. -/
theorem featureLoop_calls_origin (E : Env) (ed : Edition) :
    ∀ (fs : List String) (st st' : LoopSt), featureLoop E ed st fs = .ok st' →
      ∀ x flags, (x, flags) ∈ st'.calls → (x, flags) ∈ st.calls ∨
        (x ∈ fs ∧ isManual E x = false ∧ E.probeExists x = true) := by
  intro fs
  induction fs with
  | nil =>
    intro st st' h x flags hx
    cases h
    exact Or.inl hx
  | cons f fs ih =>
    intro st st' h x flags hx
    obtain ⟨st1, hs, hl⟩ := featureLoop_cons_ok E ed st f fs st' h
    rcases ih st1 st' hl x flags hx with hx1 | ⟨hxf, hm, hp⟩
    · rcases featureStep_calls_origin E ed st f st1 hs x flags hx1 with hx0 | ⟨rfl, _, hm, hp⟩
      · exact Or.inl hx0
      · exact Or.inr ⟨List.mem_cons_self _ _, hm, hp⟩
    · exact Or.inr ⟨List.mem_cons_of_mem f hxf, hm, hp⟩

/-- The features of the calls recorded by the loop form a sublist of the
iterated feature list: calls are issued in iteration order, at most one per
feature. -/
theorem featureLoop_calls_sublist (E : Env) (ed : Edition) :
    ∀ (fs : List String) (st st' : LoopSt), featureLoop E ed st fs = .ok st' →
      ∃ t, st'.calls = st.calls ++ t ∧ (t.map Prod.fst).Sublist fs := by
  intro fs
  induction fs with
  | nil =>
    intro st st' h
    cases h
    exact ⟨[], by simp, List.nil_sublist []⟩
  | cons f fs ih =>
    intro st st' h
    obtain ⟨st1, hs, hl⟩ := featureLoop_cons_ok E ed st f fs st' h
    obtain ⟨_, _, _, hc1⟩ := featureStep_shape E ed st f st1 hs
    obtain ⟨t, ht, hsub⟩ := ih st1 st' hl
    rcases hc1 with hc1 | hc1
    · exact ⟨t, by rw [ht, hc1], hsub.cons f⟩
    · refine ⟨(f, st.testFeatures) :: t, ?_, ?_⟩
      · rw [ht, hc1]
        simp
      · exact hsub.cons₂ f

/-- A non-manual feature without probe source gets its absence diagnostic
into the final outputs. -/
theorem featureLoop_absent_reach (E : Env) (ed : Edition) (g : String)
    (h1 : isManual E g = false) (h2 : E.probeExists g = false) :
    ∀ (fs : List String) (st st' : LoopSt), g ∈ fs →
      featureLoop E ed st fs = .ok st' →
      ("# test for \'" ++ g ++ "\' does not exist\n") ∈ st'.outputs := by
  intro fs
  induction fs with
  | nil => intro st st' hg h; cases hg
  | cons f fs ih =>
    intro st st' hg h
    obtain ⟨st1, hs, hl⟩ := featureLoop_cons_ok E ed st f fs st' h
    rcases List.mem_cons.1 hg with rfl | hg
    · rw [featureStep_absent E ed st g h1 h2] at hs
      cases hs
      apply featureLoop_outputs_mono E ed fs _ st' hl
      simp
    · exact ih st1 st' hg hl

/-- A non-manual feature with a probe that always fails to compile, or
always fails to run, gets the corresponding failure diagnostic into the
final outputs. -/
theorem featureLoop_fail_reach (E : Env) (ed : Edition) (g : String)
    (h1 : isManual E g = false) (h2 : E.probeExists g = true)
    (hfail : (∀ flags, E.compileOk g flags = false) ∨
      ((∀ flags, E.compileOk g flags = true) ∧ (∀ flags, E.runRes g flags = none)))
    (s : String) (he : edition_to_str ed = some s) :
    ∀ (fs : List String) (st st' : LoopSt), g ∈ fs →
      featureLoop E ed st fs = .ok st' →
      ("# compiling ConfTest for " ++ g ++ " failed\n") ∈ st'.outputs ∨
      ("# executing ConfTest for " ++ g ++ " failed\n") ∈ st'.outputs := by
  intro fs
  induction fs with
  | nil => intro st st' hg h; cases hg
  | cons f fs ih =>
    intro st st' hg h
    obtain ⟨st1, hs, hl⟩ := featureLoop_cons_ok E ed st f fs st' h
    rcases List.mem_cons.1 hg with rfl | hg
    · rcases hfail with hc | ⟨hc, hr⟩
      · rw [featureStep_compile_fail E ed st g s h1 h2 he (hc st.testFeatures)] at hs
        cases hs
        refine Or.inl (featureLoop_outputs_mono E ed fs _ st' hl _ ?_)
        simp
      · rw [featureStep_run_fail E ed st g s h1 h2 he (hc st.testFeatures)
          (hr st.testFeatures)] at hs
        cases hs
        refine Or.inr (featureLoop_outputs_mono E ed fs _ st' hl _ ?_)
        simp
    · exact ih st1 st' hg hl

/-- A non-manual feature whose probe always compiles and runs successfully
is enabled: its directive line reaches the final outputs and the feature
its final enabled set. -/
theorem featureLoop_success_reach (E : Env) (ed : Edition) (g : String)
    (h1 : isManual E g = false) (h2 : E.probeExists g = true)
    (hc : ∀ flags, E.compileOk g flags = true)
    (hr : ∀ flags, (E.runRes g flags).isSome = true)
    (s : String) (he : edition_to_str ed = some s) :
    ∀ (fs : List String) (st st' : LoopSt), g ∈ fs →
      featureLoop E ed st fs = .ok st' →
      ("cargo:rustc-cfg=feature=\"" ++ g ++ "\"\n") ∈ st'.outputs ∧
      g ∈ st'.enabled := by
  intro fs
  induction fs with
  | nil => intro st st' hg h; cases hg
  | cons f fs ih =>
    intro st st' hg h
    obtain ⟨st1, hs, hl⟩ := featureLoop_cons_ok E ed st f fs st' h
    rcases List.mem_cons.1 hg with rfl | hg
    · obtain ⟨out, hout⟩ := Option.isSome_iff_exists.1 (hr st.testFeatures)
      rw [featureStep_success E ed st g s out h1 h2 he (hc st.testFeatures) hout] at hs
      cases hs
      constructor
      · apply featureLoop_outputs_mono E ed fs _ st' hl
        simp
      · obtain ⟨_, _, ⟨t, ht⟩, _⟩ := featureLoop_extend E ed fs _ st' hl
        rw [ht]
        refine List.mem_append.2 (Or.inl ?_)
        simp
    · exact ih st1 st' hg hl

/-! ### The run on the normal (probing) path -/

/-- Under the normal-path hypotheses — no inhibition, `OUT_DIR` and
`CARGO_MANIFEST_DIR` set, metadata available, not on docs.rs and a
successful artifact-resolution pass — the run is the feature loop over the
ordered feature set, started from some header lines and empty accumulators. -/
theorem run_normal (E : Env) (pkgs : List Package) (o d : String) (m : ExternMap)
    (hI : E.envVars "CONF_TEST_INHIBIT" = none)
    (hO : E.envVars "OUT_DIR" = some o)
    (hM : E.metadata = some pkgs)
    (hD : E.envVars "DOCS_RS" = none)
    (hC : E.envVars "CARGO_MANIFEST_DIR" = some d)
    (hX : getExternLibs (depsOf pkgs) E.artifacts = .ok m) :
    run E = match featureLoop E ((editionOf pkgs).getD .E2021)
        ⟨preLines E o d, [], [], []⟩ (featuresOf pkgs) with
      | .error e => ⟨.panicked e, [], [], [], !E.lockfileExists⟩
      | .ok st => ⟨.success, st.outputs, st.calls, st.enabled, !E.lockfileExists⟩ := by
  rw [run, hI, runBody, hO, hM, hC]
  simp only [hD, hX, Option.isSome_none, Bool.false_eq_true, if_false]

/-! ### `get_extern_libs`: what the artifact mapping contains -/

/-- All values of the mapping are rlib files. -/
def rlibOnly (m : ExternMap) : Prop :=
  ∀ e ∈ m, extension e.2.2 = some "rlib"

theorem mapLookup_mem (k : String) :
    ∀ (m : ExternMap) (v : String × String), mapLookup k m = some v → (k, v) ∈ m := by
  intro m
  induction m with
  | nil => intro v h; cases h
  | cons e rest ih =>
    intro v h
    rw [mapLookup] at h
    by_cases hk : k = e.1
    · rw [if_pos hk] at h
      cases h
      rw [hk]
      exact List.mem_cons_self _ _
    · rw [if_neg hk] at h
      exact List.mem_cons_of_mem _ (ih v h)

theorem mem_mapInsert (k : String) (v : String × String) :
    ∀ (m : ExternMap) (e : String × String × String),
      e ∈ mapInsert k v m → e = (k, v) ∨ e ∈ m := by
  intro m
  induction m with
  | nil =>
    intro e h
    rcases List.mem_singleton.1 h with rfl
    exact Or.inl rfl
  | cons e' rest ih =>
    intro e h
    rw [mapInsert] at h
    by_cases h1 : strLt k e'.1
    · rw [if_pos h1] at h
      rcases List.mem_cons.1 h with rfl | h
      · exact Or.inl rfl
      · exact Or.inr h
    · rw [if_neg h1] at h
      by_cases h2 : k = e'.1
      · rw [if_pos h2] at h
        rcases List.mem_cons.1 h with rfl | h
        · exact Or.inl rfl
        · exact Or.inr (List.mem_cons_of_mem _ h)
      · rw [if_neg h2] at h
        rcases List.mem_cons.1 h with rfl | h
        · exact Or.inr (List.mem_cons_self _ _)
        · rcases ih e h with h | h
          · exact Or.inl h
          · exact Or.inr (List.mem_cons_of_mem _ h)

theorem mapInsert_self_mem (k : String) (v : String × String) :
    ∀ m : ExternMap, (k, v) ∈ mapInsert k v m := by
  intro m
  induction m with
  | nil => exact List.mem_singleton.2 rfl
  | cons e' rest ih =>
    rw [mapInsert]
    by_cases h1 : strLt k e'.1
    · rw [if_pos h1]
      exact List.mem_cons_self _ _
    · rw [if_neg h1]
      by_cases h2 : k = e'.1
      · rw [if_pos h2]
        exact List.mem_cons_self _ _
      · rw [if_neg h2]
        exact List.mem_cons_of_mem _ ih

theorem mapInsert_key_mem (k : String) (v : String × String) :
    ∀ (m : ExternMap) (k0 : String) (w0 : String × String), (k0, w0) ∈ m →
      ∃ w, (k0, w) ∈ mapInsert k v m := by
  intro m
  induction m with
  | nil => intro k0 w0 h; cases h
  | cons e' rest ih =>
    intro k0 w0 h
    rw [mapInsert]
    by_cases h1 : strLt k e'.1
    · rw [if_pos h1]
      exact ⟨w0, List.mem_cons_of_mem _ h⟩
    · rw [if_neg h1]
      by_cases h2 : k = e'.1
      · rw [if_pos h2]
        rcases List.mem_cons.1 h with rfl | h
        · by_cases h3 : k0 = k
          · exact ⟨v, by rw [h3]; exact List.mem_cons_self _ _⟩
          · exact absurd (h2.symm.trans rfl) fun hh => h3 (hh ▸ rfl)
        · exact ⟨w0, List.mem_cons_of_mem _ h⟩
      · rw [if_neg h2]
        rcases List.mem_cons.1 h with rfl | h
        · exact ⟨w0, List.mem_cons_self _ _⟩
        · obtain ⟨w, hw⟩ := ih k0 w0 h
          exact ⟨w, List.mem_cons_of_mem _ hw⟩

/-- Processing one file preserves the rlib-only invariant, and every new
entry is the current file, which must be an rlib. -/
theorem externStep_sound (name : String) (m : ExternMap) (file : String)
    (m' : ExternMap) (hinv : rlibOnly m) (h : externStep name m file = .ok m') :
    rlibOnly m' ∧ ∀ e ∈ m', e ∈ m ∨
      (e.2.1 = name ∧ e.2.2 = file ∧ extension file = some "rlib" ∧
        fileStem file = some e.1) := by
  simp only [externStep] at h
  rcases Option.eq_none_or_eq_some (fileStem file) with hfs | ⟨id, hfs⟩
  · rw [hfs] at h; cases h
  · simp only [hfs] at h
    rcases Option.eq_none_or_eq_some (extension file) with hex | ⟨ext, hex⟩
    · simp only [hex] at h; cases h
    · simp only [hex] at h
      by_cases h1 : ext = "rlib"
      · rw [if_pos h1] at h
        cases h
        constructor
        · intro e he
          rcases mem_mapInsert id (name, file) m e he with rfl | he
          · show extension file = some "rlib"
            rw [hex, h1]
          · exact hinv e he
        · intro e he
          rcases mem_mapInsert id (name, file) m e he with rfl | he
          · exact Or.inr ⟨rfl, rfl, by rw [hex, h1], hfs⟩
          · exact Or.inl he
      · rw [if_neg h1] at h
        by_cases h2 : ext = "rmeta"
        · rw [if_pos h2] at h
          rcases Option.eq_none_or_eq_some (mapLookup id m) with hlk | ⟨⟨n, stored⟩, hlk⟩
          · simp only [hlk] at h
            cases h
            exact ⟨hinv, fun e he => Or.inl he⟩
          · have hv : extension stored = some "rlib" :=
              hinv (id, n, stored) (mapLookup_mem id m (n, stored) hlk)
            simp only [hlk, hv] at h
            simp at h
            cases h
            exact ⟨hinv, fun e he => Or.inl he⟩
        · rw [if_neg h2] at h
          rcases Option.eq_none_or_eq_some (mapLookup id m) with hlk | ⟨⟨n, stored⟩, hlk⟩
          · simp only [hlk] at h
            cases h
            exact ⟨hinv, fun e he => Or.inl he⟩
          · have hv : extension stored = some "rlib" :=
              hinv (id, n, stored) (mapLookup_mem id m (n, stored) hlk)
            simp only [hlk, hv] at h
            simp at h
            cases h
            exact ⟨hinv, fun e he => Or.inl he⟩

/-- Processing one file keeps every existing key, and records the stem of an
rlib file. -/
theorem externStep_keys (name : String) (m : ExternMap) (file : String)
    (m' : ExternMap) (h : externStep name m file = .ok m') :
    (∀ k w, (k, w) ∈ m → ∃ w', (k, w') ∈ m') ∧
    (∀ id, fileStem file = some id → extension file = some "rlib" →
      ∃ w, (id, w) ∈ m') := by
  simp only [externStep] at h
  rcases Option.eq_none_or_eq_some (fileStem file) with hfs | ⟨id, hfs⟩
  · rw [hfs] at h; cases h
  · simp only [hfs] at h
    rcases Option.eq_none_or_eq_some (extension file) with hex | ⟨ext, hex⟩
    · simp only [hex] at h; cases h
    · simp only [hex] at h
      by_cases h1 : ext = "rlib"
      · rw [if_pos h1] at h
        cases h
        constructor
        · intro k w hk
          exact mapInsert_key_mem id (name, file) m k w hk
        · intro id' hid' _
          rw [hfs] at hid'
          cases hid'
          exact ⟨(name, file), mapInsert_self_mem id (name, file) m⟩
      · have hnotrlib : ∀ id' : String, fileStem file = some id' →
            extension file = some "rlib" → ∃ w, (id', w) ∈ m' := by
          intro id' _ hrl
          rw [hex] at hrl
          cases hrl
          exact absurd rfl h1
        rw [if_neg h1] at h
        by_cases h2 : ext = "rmeta"
        · rw [if_pos h2] at h
          rcases Option.eq_none_or_eq_some (mapLookup id m) with hlk | ⟨⟨n, stored⟩, hlk⟩
          · simp only [hlk] at h
            cases h
            exact ⟨fun k w hk => ⟨w, hk⟩, hnotrlib⟩
          · simp only [hlk] at h
            rcases Option.eq_none_or_eq_some (extension stored) with hsx | ⟨se, hsx⟩
            · rw [hsx] at h; cases h
            · simp only [hsx] at h
              by_cases h3 : se = "rlib"
              · rw [if_pos h3] at h
                cases h
                exact ⟨fun k w hk => ⟨w, hk⟩, hnotrlib⟩
              · rw [if_neg h3] at h
                cases h
                exact ⟨fun k w hk => mapInsert_key_mem id (name, file) m k w hk, hnotrlib⟩
        · rw [if_neg h2] at h
          rcases Option.eq_none_or_eq_some (mapLookup id m) with hlk | ⟨⟨n, stored⟩, hlk⟩
          · simp only [hlk] at h
            cases h
            exact ⟨fun k w hk => ⟨w, hk⟩, hnotrlib⟩
          · simp only [hlk] at h
            rcases Option.eq_none_or_eq_some (extension stored) with hsx | ⟨se, hsx⟩
            · rw [hsx] at h; cases h
            · simp only [hsx] at h
              by_cases h3 : se = "rmeta" ∨ se = "rlib"
              · rw [if_pos h3] at h
                cases h
                exact ⟨fun k w hk => ⟨w, hk⟩, hnotrlib⟩
              · rw [if_neg h3] at h
                cases h
                exact ⟨fun k w hk => mapInsert_key_mem id (name, file) m k w hk, hnotrlib⟩

/-- Inversion of a monadic fold over `Except` at a cons cell. -/
theorem foldlM_cons_ok {α β : Type} (f : β → α → Except String β) (b : β) (x : α)
    (xs : List α) (b' : β) (h : List.foldlM f b (x :: xs) = .ok b') :
    ∃ b1, f b x = .ok b1 ∧ List.foldlM f b1 xs = .ok b' := by
  rw [List.foldlM_cons] at h
  rcases hf : f b x with e | b1
  · rw [hf] at h
    cases h
  · rw [hf] at h
    exact ⟨b1, rfl, h⟩

/-- Folding the files of one artifact preserves the rlib-only invariant;
every new entry is one of its rlib files. -/
theorem externFiles_sound (name : String) :
    ∀ (files : List String) (m m' : ExternMap), rlibOnly m →
      List.foldlM (externStep name) m files = .ok m' →
      rlibOnly m' ∧ ∀ e ∈ m', e ∈ m ∨
        (e.2.1 = name ∧ e.2.2 ∈ files ∧ extension e.2.2 = some "rlib" ∧
          fileStem e.2.2 = some e.1) := by
  intro files
  induction files with
  | nil =>
    intro m m' hinv h
    cases h
    exact ⟨hinv, fun e he => Or.inl he⟩
  | cons file files ih =>
    intro m m' hinv h
    obtain ⟨m1, hstep, hrest⟩ := foldlM_cons_ok (externStep name) m file files m' h
    obtain ⟨hinv1, hnew1⟩ := externStep_sound name m file m1 hinv hstep
    obtain ⟨hinv', hnew'⟩ := ih m1 m' hinv1 hrest
    refine ⟨hinv', fun e he => ?_⟩
    rcases hnew' e he with he1 | ⟨hn, hf, hx, hs⟩
    · rcases hnew1 e he1 with he0 | ⟨hn, hf, hx, hs⟩
      · exact Or.inl he0
      · exact Or.inr ⟨hn, by rw [hf]; exact List.mem_cons_self _ _, by rw [hf]; exact hx,
          by rw [hf]; exact hs⟩
    · exact Or.inr ⟨hn, List.mem_cons_of_mem _ hf, hx, hs⟩

/-- Folding the files of one artifact keeps every key and records every
rlib stem. -/
theorem externFiles_keys (name : String) :
    ∀ (files : List String) (m m' : ExternMap),
      List.foldlM (externStep name) m files = .ok m' →
      (∀ k w, (k, w) ∈ m → ∃ w', (k, w') ∈ m') ∧
      (∀ p ∈ files, ∀ id, fileStem p = some id → extension p = some "rlib" →
        ∃ w, (id, w) ∈ m') := by
  intro files
  induction files with
  | nil =>
    intro m m' h
    cases h
    exact ⟨fun k w hk => ⟨w, hk⟩, fun p hp => absurd hp (List.not_mem_nil p)⟩
  | cons file files ih =>
    intro m m' h
    obtain ⟨m1, hstep, hrest⟩ := foldlM_cons_ok (externStep name) m file files m' h
    obtain ⟨hkeep1, hrlib1⟩ := externStep_keys name m file m1 hstep
    obtain ⟨hkeep', hrlib'⟩ := ih m1 m' hrest
    constructor
    · intro k w hk
      obtain ⟨w1, hw1⟩ := hkeep1 k w hk
      exact hkeep' k w1 hw1
    · intro p hp id hid hex
      rcases List.mem_cons.1 hp with rfl | hp
      · obtain ⟨w1, hw1⟩ := hrlib1 id hid hex
        exact hkeep' id w1 hw1
      · exact hrlib' p hp id hid hex

/-- One message preserves the invariant; every new entry is an rlib file of
a dependency artifact of that message. -/
theorem artifactStep_sound (deps : List String) (m m' : ExternMap) (msg : Message)
    (hinv : rlibOnly m) (h : artifactStep deps m msg = .ok m') :
    rlibOnly m' ∧ ∀ e ∈ m', e ∈ m ∨
      (e.2.1 ∈ deps ∧ extension e.2.2 = some "rlib" ∧ fileStem e.2.2 = some e.1 ∧
        ∃ files, msg = .compilerArtifact e.2.1 files ∧ e.2.2 ∈ files) := by
  cases msg with
  | other =>
    cases h
    exact ⟨hinv, fun e he => Or.inl he⟩
  | compilerArtifact name files =>
    rw [artifactStep] at h
    by_cases hd : name ∈ deps
    · rw [if_pos hd] at h
      obtain ⟨hinv', hnew⟩ := externFiles_sound name files m m' hinv h
      refine ⟨hinv', fun e he => ?_⟩
      rcases hnew e he with he0 | ⟨hn, hf, hx, hs⟩
      · exact Or.inl he0
      · exact Or.inr ⟨by rw [hn]; exact hd, hx, hs, files, by rw [hn], hf⟩
    · rw [if_neg hd] at h
      cases h
      exact ⟨hinv, fun e he => Or.inl he⟩

/-- One message keeps every key and records the stem of every rlib file of
a dependency artifact. -/
theorem artifactStep_keys (deps : List String) (m m' : ExternMap) (msg : Message)
    (h : artifactStep deps m msg = .ok m') :
    (∀ k w, (k, w) ∈ m → ∃ w', (k, w') ∈ m') ∧
    (∀ name files, msg = .compilerArtifact name files → name ∈ deps →
      ∀ p ∈ files, ∀ id, fileStem p = some id → extension p = some "rlib" →
        ∃ w, (id, w) ∈ m') := by
  cases msg with
  | other =>
    cases h
    exact ⟨fun k w hk => ⟨w, hk⟩, fun name files hmsg => by cases hmsg⟩
  | compilerArtifact name files =>
    rw [artifactStep] at h
    by_cases hd : name ∈ deps
    · rw [if_pos hd] at h
      obtain ⟨hkeep, hrlib⟩ := externFiles_keys name files m m' h
      refine ⟨hkeep, ?_⟩
      intro name' files' hmsg _ p hp id hid hex
      cases hmsg
      exact hrlib p hp id hid hex
    · rw [if_neg hd] at h
      cases h
      refine ⟨fun k w hk => ⟨w, hk⟩, ?_⟩
      intro name' files' hmsg hd' p hp id hid hex
      cases hmsg
      exact absurd hd' hd

/-- Soundness of the whole artifact-resolution fold: starting from an
invariant-satisfying map, every entry of the result is either inherited or
an rlib file of a dependency artifact of the stream. -/
theorem getExternLibs_fold_sound (deps : List String) :
    ∀ (msgs : List Message) (m m' : ExternMap), rlibOnly m →
      List.foldlM (artifactStep deps) m msgs = .ok m' →
      rlibOnly m' ∧ ∀ e ∈ m', e ∈ m ∨
        (e.2.1 ∈ deps ∧ extension e.2.2 = some "rlib" ∧ fileStem e.2.2 = some e.1 ∧
          ∃ files, Message.compilerArtifact e.2.1 files ∈ msgs ∧ e.2.2 ∈ files) := by
  intro msgs
  induction msgs with
  | nil =>
    intro m m' hinv h
    cases h
    exact ⟨hinv, fun e he => Or.inl he⟩
  | cons msg msgs ih =>
    intro m m' hinv h
    obtain ⟨m1, hstep, hrest⟩ := foldlM_cons_ok (artifactStep deps) m msg msgs m' h
    obtain ⟨hinv1, hnew1⟩ := artifactStep_sound deps m m1 msg hinv hstep
    obtain ⟨hinv', hnew'⟩ := ih m1 m' hinv1 hrest
    refine ⟨hinv', fun e he => ?_⟩
    rcases hnew' e he with he1 | ⟨hd, hx, hs, files, hmsg, hf⟩
    · rcases hnew1 e he1 with he0 | ⟨hd, hx, hs, files, hmsg, hf⟩
      · exact Or.inl he0
      · exact Or.inr ⟨hd, hx, hs, files, by rw [← hmsg]; exact List.mem_cons_self _ _, hf⟩
    · exact Or.inr ⟨hd, hx, hs, files, List.mem_cons_of_mem _ hmsg, hf⟩

/-- Completeness of the fold: keys are never dropped, and every rlib file
of a dependency artifact of the stream gets its stem recorded. -/
theorem getExternLibs_fold_keys (deps : List String) :
    ∀ (msgs : List Message) (m m' : ExternMap),
      List.foldlM (artifactStep deps) m msgs = .ok m' →
      (∀ k w, (k, w) ∈ m → ∃ w', (k, w') ∈ m') ∧
      (∀ name files, Message.compilerArtifact name files ∈ msgs → name ∈ deps →
        ∀ p ∈ files, ∀ id, fileStem p = some id → extension p = some "rlib" →
          ∃ w, (id, w) ∈ m') := by
  intro msgs
  induction msgs with
  | nil =>
    intro m m' h
    cases h
    exact ⟨fun k w hk => ⟨w, hk⟩, fun name files hmsg => absurd hmsg (List.not_mem_nil _)⟩
  | cons msg msgs ih =>
    intro m m' h
    obtain ⟨m1, hstep, hrest⟩ := foldlM_cons_ok (artifactStep deps) m msg msgs m' h
    obtain ⟨hkeep1, hrlib1⟩ := artifactStep_keys deps m m1 msg hstep
    obtain ⟨hkeep', hrlib'⟩ := ih m1 m' hrest
    constructor
    · intro k w hk
      obtain ⟨w1, hw1⟩ := hkeep1 k w hk
      exact hkeep' k w1 hw1
    · intro name files hmsg hd p hp id hid hex
      rcases List.mem_cons.1 hmsg with hmsg | hmsg
      · obtain ⟨w1, hw1⟩ := hrlib1 name files hmsg.symm hd p hp id hid hex
        exact hkeep' id w1 hw1
      · exact hrlib' name files hmsg hd p hp id hid hex

/-! ### The claims -/

/-- C1 (code bug): the feature flags passed to probe N are NOT only the
features probes 1..N-1 enabled.  At the concrete input where `aa` fails to
compile and `bb` succeeds, `bb` is nevertheless compiled with
`--cfg feature="aa"` although `aa` was never enabled; and when `aa` is
manually set, it is likewise propagated into `bb`'s compilation.  The
unconditional `test_features.push(feature.clone())` at the end of the loop
body (line 284 of src/lib.rs) pushes every visited feature, contradicting
the crate documentation ("Only features that get discovered are used for
the test compilations"). -/
theorem C1_propagation_bug_eval :
    (run envC1).calls = [("aa", []), ("bb", ["aa"])] ∧
    (run envC1).enabled = ["bb"] ∧
    (run envC1m).calls = [("bb", ["aa"])] ∧
    (run envC1m).enabled = ["bb"] ∧
    isManual envC1m "aa" = true := by
  refine ⟨by decide, by decide, by decide, by decide, by decide⟩

/-- C2 counterexample: a dependency artifact producing only an rmeta file
does not appear in the mapping, although its logical name is in the
dependency set and the file has a well-formed stem — refuting the claim
that an rmeta-only (or other-only) artifact still appears. -/
theorem C2_counterexample :
    getExternLibs ["dep"] [.compilerArtifact "dep" ["libdep.rmeta"]] = .ok [] ∧
    fileStem "libdep.rmeta" = some "libdep" ∧
    extension "libdep.rmeta" = some "rmeta" := by
  refine ⟨by decide, by decide, by decide⟩

/-- C2 (amended): in the mapping returned by `get_extern_libs`, every entry
is an rlib file of a dependency artifact of the stream, recorded under its
file stem — rmeta and other kinds are never retained, because a non-rlib
file is only inserted over an existing entry and every existing entry is an
rlib (so the priority branches for rmeta/other can never fire); conversely
the stem of every rlib file of a dependency artifact is present. -/
theorem C2_amended_rlib_only (deps : List String) (msgs : List Message)
    (m : ExternMap) (h : getExternLibs deps msgs = .ok m) :
    (∀ e ∈ m, extension e.2.2 = some "rlib" ∧ e.2.1 ∈ deps ∧
      fileStem e.2.2 = some e.1 ∧
      ∃ files, Message.compilerArtifact e.2.1 files ∈ msgs ∧ e.2.2 ∈ files) ∧
    (∀ name files, Message.compilerArtifact name files ∈ msgs → name ∈ deps →
      ∀ p ∈ files, ∀ id, fileStem p = some id → extension p = some "rlib" →
        ∃ w, (id, w) ∈ m) := by
  rw [getExternLibs] at h
  have hs := getExternLibs_fold_sound deps msgs [] m (fun e he => absurd he (List.not_mem_nil e)) h
  have hk := getExternLibs_fold_keys deps msgs [] m h
  refine ⟨fun e he => ?_, hk.2⟩
  rcases hs.2 e he with he0 | ⟨hd, hx, hst, files, hmsg, hf⟩
  · exact absurd he0 (List.not_mem_nil e)
  · exact ⟨hx, hd, hst, files, hmsg, hf⟩

/-- Witness for C2: a stream with an rmeta and an rlib for the same stem
retains exactly the rlib, and the amended theorem applies to it. -/
theorem C2_amended_witness :
    getExternLibs ["dep"] [.compilerArtifact "dep" ["libdep.rmeta", "libdep.rlib"]] =
      .ok [("libdep", "dep", "libdep.rlib")] ∧
    (∀ e ∈ [("libdep", "dep", "libdep.rlib")], extension e.2.2 = some "rlib" ∧
      e.2.1 ∈ ["dep"] ∧ fileStem e.2.2 = some e.1 ∧
      ∃ files, Message.compilerArtifact e.2.1 files ∈
        [Message.compilerArtifact "dep" ["libdep.rmeta", "libdep.rlib"]] ∧ e.2.2 ∈ files) :=
  ⟨by decide,
    (C2_amended_rlib_only ["dep"] [.compilerArtifact "dep" ["libdep.rmeta", "libdep.rlib"]]
      [("libdep", "dep", "libdep.rlib")] (by decide)).1⟩

/-- C3: per-feature failure isolation.  On the normal path with a
representable edition, a feature `f` whose probe always fails (to compile,
or to run) gets a failure diagnostic, is never enabled, and does not stop
the run: a feature `g` whose probe always compiles and runs successfully is
still enabled (its directive line is printed) and the whole step completes
successfully. -/
theorem C3_failure_isolation (E : Env) (pkgs : List Package) (o d s : String)
    (m : ExternMap) (f g : String)
    (hI : E.envVars "CONF_TEST_INHIBIT" = none)
    (hO : E.envVars "OUT_DIR" = some o)
    (hM : E.metadata = some pkgs)
    (hD : E.envVars "DOCS_RS" = none)
    (hC : E.envVars "CARGO_MANIFEST_DIR" = some d)
    (hX : getExternLibs (depsOf pkgs) E.artifacts = .ok m)
    (hed : edition_to_str ((editionOf pkgs).getD .E2021) = some s)
    (hf : f ∈ featuresOf pkgs) (hfm : isManual E f = false)
    (hfp : E.probeExists f = true)
    (hfail : (∀ flags, E.compileOk f flags = false) ∨
      ((∀ flags, E.compileOk f flags = true) ∧ (∀ flags, E.runRes f flags = none)))
    (hg : g ∈ featuresOf pkgs) (hgm : isManual E g = false)
    (hgp : E.probeExists g = true)
    (hgc : ∀ flags, E.compileOk g flags = true)
    (hgr : ∀ flags, (E.runRes g flags).isSome = true) :
    (("# compiling ConfTest for " ++ f ++ " failed\n") ∈ (run E).printed ∨
     ("# executing ConfTest for " ++ f ++ " failed\n") ∈ (run E).printed) ∧
    f ∉ (run E).enabled ∧
    g ∈ (run E).enabled ∧
    ("cargo:rustc-cfg=feature=\"" ++ g ++ "\"\n") ∈ (run E).printed ∧
    (run E).outcome = .success := by
  have hrun := run_normal E pkgs o d m hI hO hM hD hC hX
  obtain ⟨st', hl⟩ := featureLoop_ok E ((editionOf pkgs).getD .E2021) s hed
    (featuresOf pkgs) ⟨preLines E o d, [], [], []⟩
  rw [hrun, hl]
  refine ⟨?_, ?_, ?_, ?_, rfl⟩
  · exact featureLoop_fail_reach E _ f hfm hfp hfail s hed (featuresOf pkgs) _ st' hf hl
  · intro hmem
    rcases featureLoop_enabled_origin E _ (featuresOf pkgs) _ st' hl f hmem with
      h0 | ⟨_, _, _, flags, hcomp, hrn⟩
    · exact absurd h0 (List.not_mem_nil f)
    · rcases hfail with hcf | ⟨_, hrf⟩
      · rw [hcf flags] at hcomp
        cases hcomp
      · rw [hrf flags] at hrn
        cases hrn
  · exact (featureLoop_success_reach E _ g hgm hgp hgc hgr s hed
      (featuresOf pkgs) _ st' hg hl).2
  · exact (featureLoop_success_reach E _ g hgm hgp hgc hgr s hed
      (featuresOf pkgs) _ st' hg hl).1

/-- Witness for C3 at `envC1`: `aa` always fails to compile, `bb` always
succeeds. -/
theorem C3_witness :
    (("# compiling ConfTest for aa failed\n") ∈ (run envC1).printed ∨
     ("# executing ConfTest for aa failed\n") ∈ (run envC1).printed) ∧
    "aa" ∉ (run envC1).enabled ∧
    "bb" ∈ (run envC1).enabled ∧
    ("cargo:rustc-cfg=feature=\"bb\"\n") ∈ (run envC1).printed ∧
    (run envC1).outcome = .success :=
  C3_failure_isolation envC1 [⟨.E2021, ["aa", "bb"], []⟩] "/out" "/proj" "2021" [] "aa" "bb"
    rfl rfl rfl rfl rfl rfl rfl (by decide) rfl rfl (Or.inl fun _ => rfl)
    (by decide) rfl rfl (fun _ => rfl) (fun _ => rfl)

/-- C4: the probing loop visits the features in strictly ascending lexical
order: the ordered feature set is pairwise `<`-increasing (hence
duplicate-free: duplicates across packages are merged), it contains exactly
the declared features, and the features of the probe-compilation calls of a
normal-path run form a sublist of it — so for declared features A < B, A's
probe outcome is decided before B's probe is compiled. -/
theorem C4_lexical_order (E : Env) (pkgs : List Package) (o d : String)
    (m : ExternMap)
    (hI : E.envVars "CONF_TEST_INHIBIT" = none)
    (hO : E.envVars "OUT_DIR" = some o)
    (hM : E.metadata = some pkgs)
    (hD : E.envVars "DOCS_RS" = none)
    (hC : E.envVars "CARGO_MANIFEST_DIR" = some d)
    (hX : getExternLibs (depsOf pkgs) E.artifacts = .ok m) :
    List.Pairwise (· < ·) (featuresOf pkgs) ∧
    (∀ f, f ∈ featuresOf pkgs ↔ ∃ p ∈ pkgs, f ∈ p.features) ∧
    ((run E).calls.map Prod.fst).Sublist (featuresOf pkgs) := by
  have hrun := run_normal E pkgs o d m hI hO hM hD hC hX
  refine ⟨featuresOf_sorted pkgs, fun f => featuresOf_mem pkgs f, ?_⟩
  rcases hl : featureLoop E ((editionOf pkgs).getD .E2021)
      ⟨preLines E o d, [], [], []⟩ (featuresOf pkgs) with e | st
  · rw [hrun, hl]
    exact List.nil_sublist _
  · rw [hrun, hl]
    obtain ⟨t, ht, hsub⟩ := featureLoop_calls_sublist E _ (featuresOf pkgs) _ st hl
    show (st.calls.map Prod.fst).Sublist (featuresOf pkgs)
    rw [ht]
    simpa using hsub

/-- Witness for C4 at `envC1`. -/
theorem C4_witness :
    List.Pairwise (· < ·) (featuresOf [⟨.E2021, ["aa", "bb"], []⟩]) ∧
    (∀ f, f ∈ featuresOf [⟨.E2021, ["aa", "bb"], []⟩] ↔
      ∃ p ∈ [(⟨.E2021, ["aa", "bb"], []⟩ : Package)], f ∈ p.features) ∧
    ((run envC1).calls.map Prod.fst).Sublist (featuresOf [⟨.E2021, ["aa", "bb"], []⟩]) :=
  C4_lexical_order envC1 [⟨.E2021, ["aa", "bb"], []⟩] "/out" "/proj" []
    rfl rfl rfl rfl rfl rfl

/-- C5: the inhibition gate.  Absent: the run proceeds into the body.
`skip`: success with exactly one diagnostic and no enabled features.
`stop`: exit 0 with no diagnostics and no enabled features.  `fail`:
exit 1.  Anything else: a panic naming the value. -/
theorem C5_inhibition_gate (E : Env) :
    (E.envVars "CONF_TEST_INHIBIT" = none → run E = runBody E) ∧
    (E.envVars "CONF_TEST_INHIBIT" = some "skip" →
      (run E).outcome = .success ∧ (run E).printed.length = 1 ∧
      (run E).enabled = []) ∧
    (E.envVars "CONF_TEST_INHIBIT" = some "stop" →
      (run E).outcome = .exited 0 ∧ (run E).printed = [] ∧ (run E).enabled = []) ∧
    (E.envVars "CONF_TEST_INHIBIT" = some "fail" → (run E).outcome = .exited 1) ∧
    (∀ v, E.envVars "CONF_TEST_INHIBIT" = some v →
      v ≠ "skip" → v ≠ "stop" → v ≠ "fail" →
      (run E).outcome = .panicked ("Unknown CONF_TEST_INHIBIT value: \"" ++ v ++ "\"")) := by
  refine ⟨?_, ?_, ?_, ?_, ?_⟩
  · intro h
    rw [run, h]
  · intro h
    rw [run, h]
    exact ⟨rfl, rfl, rfl⟩
  · intro h
    rw [run, h]
    exact ⟨rfl, rfl, rfl⟩
  · intro h
    rw [run, h]
    rfl
  · intro v h hskip hstop hfail
    rw [run, h]
    show (if v = "skip" then _ else if v = "stop" then _ else if v = "fail" then _
      else RunResult.mk (.panicked ("Unknown CONF_TEST_INHIBIT value: \"" ++ v ++ "\""))
        [] [] [] false).outcome = _
    rw [if_neg hskip, if_neg hstop, if_neg hfail]

/-- Witness for C5 across the four gate settings and the absent case. -/
theorem C5_witness :
    (run (envGate none) = runBody (envGate none)) ∧
    ((run (envGate (some "skip"))).outcome = .success ∧
      (run (envGate (some "skip"))).printed.length = 1 ∧
      (run (envGate (some "skip"))).enabled = []) ∧
    ((run (envGate (some "stop"))).outcome = .exited 0 ∧
      (run (envGate (some "stop"))).printed = [] ∧
      (run (envGate (some "stop"))).enabled = []) ∧
    ((run (envGate (some "fail"))).outcome = .exited 1) ∧
    ((run (envGate (some "bogus"))).outcome =
      .panicked ("Unknown CONF_TEST_INHIBIT value: \"" ++ "bogus" ++ "\"")) :=
  ⟨(C5_inhibition_gate (envGate none)).1 rfl,
   (C5_inhibition_gate (envGate (some "skip"))).2.1 rfl,
   (C5_inhibition_gate (envGate (some "stop"))).2.2.1 rfl,
   (C5_inhibition_gate (envGate (some "fail"))).2.2.2.1 rfl,
   (C5_inhibition_gate (envGate (some "bogus"))).2.2.2.2 "bogus" rfl
     (by decide) (by decide) (by decide)⟩

/-- C6: monotonicity of the accumulated sets.  Any successful stretch of
the feature loop only extends `test_features` (the flags passed to later
probe compilations) and the enabled-feature set: nothing is ever removed. -/
theorem C6_monotonic (E : Env) (ed : Edition) (fs : List String)
    (st st' : LoopSt) (h : featureLoop E ed st fs = .ok st') :
    (∃ t, st'.testFeatures = st.testFeatures ++ t) ∧
    (∃ t, st'.enabled = st.enabled ++ t) :=
  ⟨(featureLoop_extend E ed fs st st' h).2.1,
   (featureLoop_extend E ed fs st st' h).2.2.1⟩

/-- Witness for C6: the loop of `envC1` from the empty state. -/
theorem C6_witness :
    featureLoop envC1 .E2021 ⟨[], [], [], []⟩ ["aa", "bb"] = .ok stC6 ∧
    ((∃ t, stC6.testFeatures = [] ++ t) ∧ (∃ t, stC6.enabled = [] ++ t)) :=
  ⟨by decide, C6_monotonic envC1 .E2021 ["aa", "bb"] ⟨[], [], [], []⟩ stC6 (by decide)⟩

/-- C7: a declared feature that is not manually overridden and has no probe
source is reported absent, never enabled, never compiled, and the run
completes successfully. -/
theorem C7_probe_absent (E : Env) (pkgs : List Package) (o d s : String)
    (m : ExternMap) (f : String)
    (hI : E.envVars "CONF_TEST_INHIBIT" = none)
    (hO : E.envVars "OUT_DIR" = some o)
    (hM : E.metadata = some pkgs)
    (hD : E.envVars "DOCS_RS" = none)
    (hC : E.envVars "CARGO_MANIFEST_DIR" = some d)
    (hX : getExternLibs (depsOf pkgs) E.artifacts = .ok m)
    (hed : edition_to_str ((editionOf pkgs).getD .E2021) = some s)
    (hf : f ∈ featuresOf pkgs) (hm : isManual E f = false)
    (hp : E.probeExists f = false) :
    ("# test for \'" ++ f ++ "\' does not exist\n") ∈ (run E).printed ∧
    f ∉ (run E).enabled ∧
    (∀ flags, (f, flags) ∉ (run E).calls) ∧
    (run E).outcome = .success := by
  have hrun := run_normal E pkgs o d m hI hO hM hD hC hX
  obtain ⟨st', hl⟩ := featureLoop_ok E ((editionOf pkgs).getD .E2021) s hed
    (featuresOf pkgs) ⟨preLines E o d, [], [], []⟩
  rw [hrun, hl]
  refine ⟨?_, ?_, ?_, rfl⟩
  · exact featureLoop_absent_reach E _ f hm hp (featuresOf pkgs) _ st' hf hl
  · intro hmem
    rcases featureLoop_enabled_origin E _ (featuresOf pkgs) _ st' hl f hmem with
      h0 | ⟨_, _, hp', _⟩
    · exact absurd h0 (List.not_mem_nil f)
    · rw [hp] at hp'
      cases hp'
  · intro flags hmem
    rcases featureLoop_calls_origin E _ (featuresOf pkgs) _ st' hl f flags hmem with
      h0 | ⟨_, _, hp'⟩
    · exact absurd h0 (List.not_mem_nil (f, flags))
    · rw [hp] at hp'
      cases hp'

/-- Witness for C7 at `envC7`: `beta` has no probe source. -/
theorem C7_witness :
    ("# test for \'beta\' does not exist\n") ∈ (run envC7).printed ∧
    "beta" ∉ (run envC7).enabled ∧
    (∀ flags, ("beta", flags) ∉ (run envC7).calls) ∧
    (run envC7).outcome = .success :=
  C7_probe_absent envC7 [⟨.E2021, ["alpha", "beta"], []⟩] "/out" "/proj" "2021" [] "beta"
    rfl rfl rfl rfl rfl rfl rfl (by decide) rfl rfl

/-- C8: determinism.  Two environments that agree on every input — the
environment variables, the metadata, the probe sources, the compile and run
oracles, the lockfile state and the artifact stream — produce the same
printed diagnostic log and the same enabled-feature set (indeed the same
whole result). -/
theorem C8_deterministic (E1 E2 : Env)
    (h1 : E1.envVars = E2.envVars) (h2 : E1.metadata = E2.metadata)
    (h3 : E1.probeExists = E2.probeExists) (h4 : E1.compileOk = E2.compileOk)
    (h5 : E1.runRes = E2.runRes) (h6 : E1.lockfileExists = E2.lockfileExists)
    (h7 : E1.removeOk = E2.removeOk) (h8 : E1.artifacts = E2.artifacts) :
    (run E1).printed = (run E2).printed ∧ (run E1).enabled = (run E2).enabled := by
  have heq : E1 = E2 := by
    cases E1
    cases E2
    dsimp only at h1 h2 h3 h4 h5 h6 h7 h8
    subst h1 h2 h3 h4 h5 h6 h7 h8
    rfl
  rw [heq]
  exact ⟨rfl, rfl⟩

/-- Witness for C8 with both environments `envC1`. -/
theorem C8_witness :
    (run envC1).printed = (run envC1).printed ∧
    (run envC1).enabled = (run envC1).enabled :=
  C8_deterministic envC1 envC1 rfl rfl rfl rfl rfl rfl rfl rfl

/-- C9: `edition_to_str` is partial — undefined beyond 2015/2018/2021 — so
when the first-seen package declares the 2024 edition and any probe is
about to be compiled (a declared feature, not manual, with an existing
probe source, on the normal path), the whole run panics with the todo
message. -/
theorem C9_edition_panic (E : Env) (p0 : Package) (rest : List Package)
    (o d : String) (m : ExternMap) (f : String)
    (hI : E.envVars "CONF_TEST_INHIBIT" = none)
    (hO : E.envVars "OUT_DIR" = some o)
    (hM : E.metadata = some (p0 :: rest))
    (hD : E.envVars "DOCS_RS" = none)
    (hC : E.envVars "CARGO_MANIFEST_DIR" = some d)
    (hX : getExternLibs (depsOf (p0 :: rest)) E.artifacts = .ok m)
    (hed : p0.edition = .E2024)
    (hf : f ∈ featuresOf (p0 :: rest)) (hm : isManual E f = false)
    (hp : E.probeExists f = true) :
    edition_to_str .E2024 = none ∧
    (run E).outcome = .panicked editionPanicMsg := by
  have hrun := run_normal E (p0 :: rest) o d m hI hO hM hD hC hX
  have hedn : edition_to_str ((editionOf (p0 :: rest)).getD .E2021) = none := by
    rw [editionOf_cons, hed]
    rfl
  have hl := featureLoop_trigger E ((editionOf (p0 :: rest)).getD .E2021) f hm hp hedn
    (featuresOf (p0 :: rest)) ⟨preLines E o d, [], [], []⟩ hf
  rw [hrun, hl]
  exact ⟨rfl, rfl⟩

/-- Witness for C9 at `envC9`: the first package declares edition 2024 and
the probe of `aa` exists. -/
theorem C9_witness :
    edition_to_str .E2024 = none ∧
    (run envC9).outcome = .panicked editionPanicMsg :=
  C9_edition_panic envC9 ⟨.E2024, ["aa", "bb"], []⟩ [] "/out" "/proj" [] "aa"
    rfl rfl rfl rfl rfl rfl rfl (by decide) rfl rfl

/-- C10: a lockfile that exists at the start of a run is never deleted:
deletion of the lockfile path is attempted only in the branch where the
lockfile was found not to exist. -/
theorem C10_lockfile_preserved (E : Env) (h : E.lockfileExists = true) :
    (run E).lockfileDeleteAttempted = false := by
  have hb : (!E.lockfileExists) = false := by rw [h]; rfl
  rw [run]
  split
  · split
    · rfl
    · split
      · rfl
      · split
        · rfl
        · rfl
  · rw [runBody]
    dsimp only
    split
    · rfl
    · split
      · rfl
      · split
        · split
          · rfl
          · rfl
        · split
          · rfl
          · split
            · rfl
            · split
              · exact hb
              · exact hb

/-- Witness for C10 at `envC1`, whose lockfile exists. -/
theorem C10_witness :
    envC1.lockfileExists = true ∧ (run envC1).lockfileDeleteAttempted = false :=
  ⟨rfl, C10_lockfile_preserved envC1 rfl⟩

end ConfTest
